import Mathlib

/-!
Verification of the retention manager of `autodeletto` (`src/msgman.rs`).

The manager keeps, per monitored channel, a `CappedQueue`: a FIFO queue of
retained non-pinned messages bounded by `limit`, plus a separately tracked
list of pinned messages.  The operations embedded below are translated from
`MessageManager` in `src/msgman.rs`:

  * `insert_message`   (msgman.rs lines 203-223)
  * `remove_message`   (msgman.rs lines 225-231)
  * `insert_pin`       (msgman.rs lines 233-257)
  * `on_pins_updated`  (msgman.rs lines 150-201)
  * `remove_limit`     (msgman.rs lines 273-295)
  * `update_limit`     (msgman.rs lines 297-409, with nested `update_db`)

External effects are made explicit: remote Discord calls (message deletion,
pin fetch, history iteration) are returned as data / taken as parameters,
and SQLite writes are returned as a list of `DBOp`.  Each `execute(..).await
.unwrap()` in the Rust source panics when the write fails, so the fallible
operations return `Option`: `none` models the panic (the command never
completes).  Remote message-deletion failures are only logged in the source
and have no effect on state, so they need no outcome parameter.
-/

namespace Autodeletto

/-- A Discord message, restricted to the fields the manager reads:
identifier, channel identifier, timestamp and pinned flag. -/
structure Message where
  id : Nat
  channel_id : Nat
  timestamp : Nat
  pinned : Bool
deriving Repr, DecidableEq

/-- `CappedQueue` from msgman.rs lines 50-55: the retained messages
(`queue`, oldest at the front), the tracked pins, and the limit. -/
structure CappedQueue where
  queue : List Message
  pins : List Message
  limit : Nat
deriving Repr, DecidableEq

/-- The registry `channel_queues : HashMap<ChannelId, CappedQueue>`,
modelled as a partial function from channel ids. -/
def Registry : Type := Nat → Option CappedQueue

/-- `HashMap::insert` / overwriting the entry for one channel. -/
def Registry.update (reg : Registry) (ch : Nat) (cq : CappedQueue) : Registry :=
  fun c => if c = ch then some cq else reg c

/-- `HashMap::remove` for one channel. -/
def Registry.erase (reg : Registry) (ch : Nat) : Registry :=
  fun c => if c = ch then none else reg c

/-- `MessageManager` state (msgman.rs lines 57-62): the registry and
whether the SQLite pool is initialized (`database: Option<Pool<Sqlite>>`,
modelled by its presence). -/
structure MMState where
  channel_queues : Registry
  database : Bool

/-- One SQLite write issued by the manager. -/
inductive DBOp where
  /-- `INSERT OR REPLACE INTO channel_limits VALUES (?, ?)` -/
  | upsertLimit (channel : Nat) (limit : Nat)
  /-- `DELETE FROM channel_limits WHERE channel_id=?` -/
  | deleteLimitRow (channel : Nat)
  /-- `INSERT INTO channel_limit_edits VALUES (?,?,?,?)` -/
  | appendAudit (actor : Option Nat) (channel : Nat) (new_limit : Nat) (ts : Nat)
deriving Repr, DecidableEq

/-- Whether a `DBOp` deletes persisted rows (as opposed to inserting or
replacing them).  Only `deleteLimitRow` deletes anything. -/
def DBOp.isRowDelete : DBOp → Bool
  | .deleteLimitRow _ => true
  | _ => false

/-- The user-facing reply string of a command, abstracted to which
`format!` branch of the source produced it together with its numeric
payload. -/
inductive Reply where
  /-- "<#{channel}> doesn't have a limit!" -/
  | noLimit (channel : Nat)
  /-- "Removed limit ({old_limit}) from <#{channel}>" -/
  | removedLimit (old_limit : Nat) (channel : Nat)
  /-- "Created limit {new_limit} for channel <#{channel}>, and I'm already purging older messages!" -/
  | created (new_limit : Nat) (channel : Nat)
  /-- "Initialized channel {channel} limit to {new_limit}" -/
  | initialized (channel : Nat) (new_limit : Nat)
  /-- "{new_limit} already is the limit for <#{channel}>!" -/
  | alreadyLimit (new_limit : Nat) (channel : Nat)
  /-- "Okay, I increased the limit of <#{channel}> from {old} to {new}!" -/
  | increased (channel : Nat) (old_limit : Nat) (new_limit : Nat)
  /-- "Okay, I decreased the limit of <#{channel}> from {old} to {new}, and I'm already purging older messages!" -/
  | decreased (channel : Nat) (old_limit : Nat) (new_limit : Nat)
  /-- `error.to_string()` returned when the history stream yields an error. -/
  | historyError
deriving Repr, DecidableEq

/-- The eviction loop of `insert_message` (msgman.rs lines 207-216):
`while cq.queue.len() >= cq.limit { pop_front and delete remotely }`.
Returns the remaining queue and the popped (remotely deleted) messages in
pop order.  Each pop shortens the queue, so the recursion is structural;
the source loop would spin forever when `limit = 0` and the queue is
empty, a state the validated limits (5..=500) never produce. -/
def evictLoop (limit : Nat) : List Message → List Message × List Message
  | [] => ([], [])
  | m :: rest =>
    if (m :: rest).length ≥ limit then
      let r := evictLoop limit rest
      (r.1, m :: r.2)
    else
      (m :: rest, [])

/-- The trim loop of `on_pins_updated` (msgman.rs lines 188-197):
`while cq.queue.len() > cq.limit { pop_front and delete remotely }`. -/
def trimLoop (limit : Nat) : List Message → List Message × List Message
  | [] => ([], [])
  | m :: rest =>
    if (m :: rest).length > limit then
      let r := trimLoop limit rest
      (r.1, m :: r.2)
    else
      (m :: rest, [])

/-- `MessageManager::insert_message` (msgman.rs lines 203-223).  Returns
the new registry and the messages popped and remotely deleted.  A channel
with no queue is untracked: no-op. -/
def insert_message (reg : Registry) (msg : Message) (push_back : Bool) :
    Registry × List Message :=
  match reg msg.channel_id with
  | none => (reg, [])
  | some cq =>
    let r := evictLoop cq.limit cq.queue
    let q2 := if push_back then r.1 ++ [msg] else msg :: r.1
    (reg.update msg.channel_id { cq with queue := q2 }, r.2)

/-- `MessageManager::remove_message` (msgman.rs lines 225-231): drop the
identifier from both `queue` and `pins`. -/
def remove_message (reg : Registry) (msg_id : Nat) (ch : Nat) : Registry :=
  match reg ch with
  | none => reg
  | some cq =>
    reg.update ch
      { cq with
        queue := cq.queue.filter (fun m => !(m.id == msg_id))
        pins := cq.pins.filter (fun m => !(m.id == msg_id)) }

/-- The position scan of `insert_pin` (msgman.rs lines 243-256): insert
`msg` right before the first element whose timestamp is strictly greater,
or at the back when no such element exists. -/
def insertChrono (msg : Message) : List Message → List Message
  | [] => [msg]
  | q :: rest =>
    if q.timestamp > msg.timestamp then
      msg :: q :: rest
    else
      q :: insertChrono msg rest

/-- `MessageManager::insert_pin` (msgman.rs lines 233-257).  On an empty
pin list the source pushes at the front; otherwise it scans for the
chronological position. -/
def insert_pin (reg : Registry) (msg : Message) : Registry :=
  match reg msg.channel_id with
  | none => reg
  | some cq =>
    if cq.pins.isEmpty then
      reg.update msg.channel_id { cq with pins := [msg] }
    else
      reg.update msg.channel_id { cq with pins := insertChrono msg cq.pins }

/-- Ascending-timestamp comparison, the comparator of
`sort_by(|a, b| a.timestamp.cmp(&b.timestamp))`. -/
def tsLE (a b : Message) : Prop := a.timestamp ≤ b.timestamp

instance : DecidableRel tsLE := fun a b => Nat.decLe a.timestamp b.timestamp

instance : IsTotal Message tsLE := ⟨fun a b => Nat.le_total a.timestamp b.timestamp⟩

instance : IsTrans Message tsLE := ⟨fun _ _ _ => Nat.le_trans⟩

instance : DecidableRel (fun a b : Message => tsLE b a) :=
  fun a b => Nat.decLe b.timestamp a.timestamp

/-- Rust `Vec::sort_by` with the ascending-timestamp comparator.  `sort_by`
is a stable sort, and any two stable sorts under the same order agree
elementwise, so the stable `insertionSort` models it exactly. -/
def sortByTimestamp (l : List Message) : List Message :=
  List.insertionSort tsLE l

/-- `MessageManager::on_pins_updated` (msgman.rs lines 150-201).
`fetch` is the result of `channel.pins(ctx).await` (`none` = Err).
Returns the new registry and the messages popped and remotely deleted by
the trim loop.  Note the source assigns `cq.pins = updated_pins` verbatim:
the `updated_pins.sort_by(..)` call on line 153 is commented out. -/
def on_pins_updated (reg : Registry) (ch : Nat) (fetch : Option (List Message)) :
    Registry × List Message :=
  match reg ch with
  | none => (reg, [])
  | some cq =>
    match fetch with
    | none => (reg, [])
    | some updated_pins =>
      let removed_pins :=
        cq.pins.filter (fun e => !(updated_pins.any (fun c => c.id == e.id)))
      let added_pins :=
        (updated_pins.filter (fun c => !(cq.pins.any (fun e => e.id == c.id)))).map
          (fun c => c.id)
      let q1 := cq.queue.filter (fun m => !(added_pins.contains m.id))
      let candidates := sortByTimestamp (removed_pins ++ q1)
      let r := trimLoop cq.limit candidates
      (reg.update ch { queue := r.1, pins := updated_pins, limit := cq.limit }, r.2)

/-- `MessageManager::remove_limit` (msgman.rs lines 273-295).  `dOk` and
`aOk` are the outcomes of the two `execute(..).unwrap()` calls; a failed
write panics (`none`).  Returns the new state, the remotely deleted
messages (none are ever deleted here: the queue is only discarded
locally), the SQLite writes, and the reply. -/
def remove_limit (st : MMState) (ch : Nat) (user : Nat) (now : Nat)
    (dOk aOk : Bool) : Option (MMState × List Message × List DBOp × Reply) :=
  match st.channel_queues ch with
  | none => some (st, [], [], .noLimit ch)
  | some old_cq =>
    let st' : MMState := { st with channel_queues := st.channel_queues.erase ch }
    if st.database then
      if dOk then
        if aOk then
          some (st', [],
            [.deleteLimitRow ch, .appendAudit (some user) ch 0 now],
            .removedLimit old_cq.limit ch)
        else none
      else none
    else
      some (st', [], [], .removedLimit old_cq.limit ch)

/-- The nested `update_db` of `update_limit` (msgman.rs lines 299-319).
`uOk`/`aOk` are the outcomes of the two `execute(..).unwrap()` calls.
With no database pool the source only logs and returns `Err(())`.  With a
pool, a failed upsert panics; then `user_id.expect(..)` panics on `none`;
then a failed audit insert panics.  `none` models the panic; otherwise the
issued writes and the `Result` are returned. -/
def update_db (channel : Nat) (new_limit : Nat) (user : Option Nat)
    (dbPresent : Bool) (now : Nat) (uOk aOk : Bool) :
    Option (List DBOp × Bool) :=
  if dbPresent then
    if uOk then
      match user with
      | none => none
      | some u =>
        if aOk then
          some ([.upsertLimit channel new_limit,
                 .appendAudit (some u) channel new_limit now], true)
        else none
    else none
  else
    some ([], false)

/-- The backfill scan of `update_limit` (msgman.rs lines 326-351): iterate
the channel's history (newest first); a stream error returns early
(`true` in the result); a pinned message is skipped without touching
`message_count`; otherwise the message is inserted at the front while
`message_count < limit` and remotely deleted once the count reaches the
limit.  Returns the registry, the remotely deleted messages, and the
early-error flag. -/
def backfillScan (reg : Registry) (history : List (Except Unit Message))
    (count limit : Nat) : Registry × List Message × Bool :=
  match history with
  | [] => (reg, [], false)
  | .error _ :: _ => (reg, [], true)
  | .ok msg :: rest =>
    if msg.pinned then
      backfillScan reg rest count limit
    else if count < limit then
      let r := insert_message reg msg false
      let r' := backfillScan r.1 rest (count + 1) limit
      (r'.1, r.2 ++ r'.2.1, r'.2.2)
    else
      let r' := backfillScan reg rest (count + 1) limit
      (r'.1, msg :: r'.2.1, r'.2.2)

/-- `MessageManager::update_limit` (msgman.rs lines 297-409).  `history`
is the stream from `channel.messages_iter`, `pinsFetch` the result of
`channel.pins(ctx)`, `now` the audit timestamp, `uOk`/`aOk` the SQLite
write outcomes fed to `update_db`.  Returns `none` on a panic, otherwise
the new state, the remotely deleted messages, the SQLite writes and the
reply. -/
def update_limit (st : MMState) (ch : Nat) (new_limit : Nat) (is_init : Bool)
    (user : Option Nat) (history : List (Except Unit Message))
    (pinsFetch : Except Unit (List Message)) (now : Nat) (uOk aOk : Bool) :
    Option (MMState × List Message × List DBOp × Reply) :=
  match st.channel_queues ch with
  | none =>
    -- No queue yet: create one, then run the backfill scan.
    let reg0 := st.channel_queues.update ch ⟨[], [], new_limit⟩
    let scan := backfillScan reg0 history 0 new_limit
    if scan.2.2 then
      -- Stream error: `return error.to_string()` before pins and DB.
      some ({ st with channel_queues := scan.1 }, scan.2.1, [], .historyError)
    else
      let reg2 :=
        match pinsFetch with
        | .ok pinned_messages => pinned_messages.foldl insert_pin scan.1
        | .error _ => scan.1
      if is_init then
        some ({ st with channel_queues := reg2 }, scan.2.1, [], .initialized ch new_limit)
      else
        match update_db ch new_limit user st.database now uOk aOk with
        | none => none
        | some dbr =>
          some ({ st with channel_queues := reg2 }, scan.2.1, dbr.1,
            .created new_limit ch)
  | some queue =>
    match update_db ch new_limit user st.database now uOk aOk with
    | none => none
    | some dbr =>
      let old_limit := queue.limit
      if old_limit = new_limit then
        some (st, [], dbr.1, .alreadyLimit new_limit ch)
      else if old_limit < new_limit then
        some ({ st with channel_queues :=
                  st.channel_queues.update ch { queue with limit := new_limit } },
          [], dbr.1, .increased ch old_limit new_limit)
      else
        -- Pop exactly `if len > new_limit then len - new_limit else 0`
        -- front entries, deleting each remotely.
        let n := queue.queue.length - new_limit
        let cq' : CappedQueue := ⟨queue.queue.drop n, queue.pins, new_limit⟩
        some ({ st with channel_queues := st.channel_queues.update ch cq' },
          queue.queue.take n, dbr.1, .decreased ch old_limit new_limit)

/-! ### Concrete instances used by scenario conjuncts, counterexamples and
witnesses -/

/-- A registry with one monitored channel (id 1), empty queue, limit 5. -/
def wReg : Registry := fun c => if c = 1 then some ⟨[], [], 5⟩ else none

/-- A fresh non-pinned message for channel 1. -/
def wMsg : Message := ⟨7, 1, 7, false⟩

/-- A message for channel 2, which `wReg` does not monitor. -/
def wMsgOther : Message := ⟨8, 2, 8, false⟩

/-- A manager state over `wReg` with no database pool. -/
def wSt : MMState := ⟨wReg, false⟩

/-- A registry whose channel 1 holds one retained message. -/
def wRegCfg : Registry := fun c => if c = 1 then some ⟨[wMsg], [], 5⟩ else none

/-- A manager state over `wRegCfg` with a database pool present. -/
def wStCfg : MMState := ⟨wRegCfg, true⟩

/-- The capped queue of channel 1 in `wRegCfg`. -/
def wCq : CappedQueue := ⟨[wMsg], [], 5⟩

/-- A manager state with no configured channel. -/
def emptySt : MMState := ⟨fun _ => none, true⟩

/-- The result of the C1 witness `update_limit` call, spelled out. -/
def c1Res : MMState × List Message × List DBOp × Reply :=
  ({ channel_queues := wReg.update 2 ⟨[], [], 5⟩, database := false }, [], [],
    .created 5 2)

/-- The i-th message of the spec's six-message scenario (§8). -/
def scenarioMsg (i : Nat) : Message := ⟨i, 1, i, false⟩

/-- Inserting m1..m6 one at a time at the back of channel 1 (limit 5),
accumulating the remotely deleted messages. -/
def scenarioRun : Registry × List Message :=
  (List.range 6).foldl
    (fun acc i =>
      let p := insert_message acc.1 (scenarioMsg (i + 1)) true
      (p.1, acc.2 ++ p.2))
    (wReg, [])

/-- A pinned message with timestamp 2. -/
def pinA : Message := ⟨10, 1, 2, true⟩

/-- A pinned message with timestamp 1: `[pinA, pinB]` is a remote pin
snapshot that is not ascending by timestamp. -/
def pinB : Message := ⟨20, 1, 1, true⟩

/-- The newest-first channel history of the C9 witness: six messages,
the one with id 4 pinned. -/
def c9Msgs : List Message :=
  [⟨6, 1, 6, false⟩, ⟨5, 1, 5, false⟩, ⟨4, 1, 4, true⟩,
   ⟨3, 1, 3, false⟩, ⟨2, 1, 2, false⟩, ⟨1, 1, 1, false⟩]

/-! ### Invariant definitions (spec §3) -/

/-- Every configured channel satisfies `len(queue) ≤ limit` with a positive
limit (limits are validated to `5..=500` before ever reaching the
manager, so positivity is carried along). -/
def SizeInv (reg : Registry) : Prop :=
  ∀ c cq, reg c = some cq → cq.queue.length ≤ cq.limit ∧ 0 < cq.limit

/-- `queue` and `pins` of every configured channel are disjoint by message
identifier. -/
def DisjInv (reg : Registry) : Prop :=
  ∀ c cq, reg c = some cq →
    ∀ m ∈ cq.queue, ∀ p ∈ cq.pins, m.id ≠ p.id

/-- `pins` of every configured channel is ascending by timestamp. -/
def PinsSorted (reg : Registry) : Prop :=
  ∀ c cq, reg c = some cq → List.Sorted tsLE cq.pins

/-! ### Helper lemmas about the registry and the eviction loops -/

theorem Registry.update_self (reg : Registry) (ch : Nat) (cq : CappedQueue) :
    (reg.update ch cq) ch = some cq := by
  simp [Registry.update]

theorem Registry.update_other (reg : Registry) (ch : Nat) (cq : CappedQueue)
    (c : Nat) (h : c ≠ ch) : (reg.update ch cq) c = reg c := by
  simp [Registry.update, h]

theorem Registry.update_update (reg : Registry) (ch : Nat) (a b : CappedQueue) :
    (reg.update ch a).update ch b = reg.update ch b := by
  funext c
  by_cases hc : c = ch <;> simp [Registry.update, hc]

theorem Registry.update_eq_self (reg : Registry) (ch : Nat) (cq : CappedQueue)
    (h : reg ch = some cq) : reg.update ch cq = reg := by
  funext c
  by_cases hc : c = ch
  · subst hc; simp [Registry.update, h]
  · simp [Registry.update, hc]

/-- The `insert_message` eviction loop pops exactly the first
`len + 1 - limit` entries (zero when `len < limit`). -/
theorem evictLoop_eq (limit : Nat) (q : List Message) :
    evictLoop limit q =
      (q.drop (q.length + 1 - limit), q.take (q.length + 1 - limit)) := by
  induction q with
  | nil => simp [evictLoop]
  | cons m rest ih =>
    by_cases h : (m :: rest).length ≥ limit
    · have hn : (m :: rest).length + 1 - limit = (rest.length + 1 - limit) + 1 := by
        simp only [List.length_cons] at h ⊢
        omega
      simp only [evictLoop, if_pos h, ih, hn, List.drop_succ_cons, List.take_succ_cons]
    · simp only [List.length_cons, ge_iff_le, not_le] at h
      have hn : rest.length + 1 + 1 - limit = 0 := by omega
      simp [evictLoop, hn, Nat.not_le.mpr h]

theorem evictLoop_of_lt (limit : Nat) (q : List Message) (h : q.length < limit) :
    evictLoop limit q = (q, []) := by
  have hn : q.length + 1 - limit = 0 := by omega
  simp [evictLoop_eq, hn]

theorem evictLoop_fst_length (limit : Nat) (q : List Message) (h : 0 < limit) :
    ((evictLoop limit q).1).length + 1 ≤ limit := by
  simp only [evictLoop_eq, List.length_drop]
  omega

theorem evictLoop_fst_sublist (limit : Nat) (q : List Message) :
    ((evictLoop limit q).1).Sublist q := by
  simp only [evictLoop_eq]
  exact List.drop_sublist _ _

/-- The `on_pins_updated` trim loop pops exactly the first `len - limit`
entries (zero when `len ≤ limit`). -/
theorem trimLoop_eq (limit : Nat) (q : List Message) :
    trimLoop limit q = (q.drop (q.length - limit), q.take (q.length - limit)) := by
  induction q with
  | nil => simp [trimLoop]
  | cons m rest ih =>
    by_cases h : (m :: rest).length > limit
    · have hn : (m :: rest).length - limit = (rest.length - limit) + 1 := by
        simp only [List.length_cons] at h ⊢
        omega
      simp only [trimLoop, if_pos h, ih, hn, List.drop_succ_cons, List.take_succ_cons]
    · simp only [List.length_cons, gt_iff_lt, not_lt] at h
      have hn : rest.length + 1 - limit = 0 := by omega
      simp [trimLoop, hn, Nat.not_lt.mpr h]

theorem trimLoop_of_le (limit : Nat) (q : List Message) (h : q.length ≤ limit) :
    trimLoop limit q = (q, []) := by
  have hn : q.length - limit = 0 := by omega
  simp [trimLoop_eq, hn]

theorem trimLoop_fst_length (limit : Nat) (q : List Message) :
    ((trimLoop limit q).1).length ≤ limit := by
  simp only [trimLoop_eq, List.length_drop]
  omega

theorem trimLoop_fst_sublist (limit : Nat) (q : List Message) :
    ((trimLoop limit q).1).Sublist q := by
  simp only [trimLoop_eq]
  exact List.drop_sublist _ _

/-! ### Helper lemmas about the timestamp sort -/

theorem sortByTimestamp_sorted (l : List Message) :
    List.Sorted tsLE (sortByTimestamp l) :=
  List.sorted_insertionSort tsLE l

theorem sortByTimestamp_of_sorted {l : List Message} (h : List.Sorted tsLE l) :
    sortByTimestamp l = l :=
  List.Sorted.insertionSort_eq h

theorem mem_sortByTimestamp {l : List Message} {x : Message} :
    x ∈ sortByTimestamp l ↔ x ∈ l :=
  List.mem_insertionSort tsLE

theorem containsNat_iff {l : List Nat} {a : Nat} : l.contains a = true ↔ a ∈ l := by
  simp

/-! ### Preservation of the size invariant -/

theorem insert_message_sizeInv (reg : Registry) (msg : Message) (pb : Bool)
    (h : SizeInv reg) : SizeInv (insert_message reg msg pb).1 := by
  intro c cq hc
  cases hreg : reg msg.channel_id with
  | none =>
    simp only [insert_message, hreg] at hc
    exact h c cq hc
  | some cq0 =>
    simp only [insert_message, hreg] at hc
    by_cases hcc : c = msg.channel_id
    · subst hcc
      rw [Registry.update_self] at hc
      obtain ⟨_, hpos⟩ := h _ _ hreg
      cases hc
      refine ⟨?_, hpos⟩
      have hlen := evictLoop_fst_length cq0.limit cq0.queue hpos
      by_cases hpb : pb <;> simp [hpb] <;> omega
    · rw [Registry.update_other _ _ _ _ hcc] at hc
      exact h c cq hc

theorem on_pins_updated_sizeInv (reg : Registry) (ch : Nat)
    (fetch : Option (List Message)) (h : SizeInv reg) :
    SizeInv (on_pins_updated reg ch fetch).1 := by
  intro c cq hc
  cases hreg : reg ch with
  | none =>
    simp only [on_pins_updated, hreg] at hc
    exact h c cq hc
  | some cq0 =>
    cases fetch with
    | none =>
      simp only [on_pins_updated, hreg] at hc
      exact h c cq hc
    | some snap =>
      simp only [on_pins_updated, hreg] at hc
      by_cases hcc : c = ch
      · subst hcc
        rw [Registry.update_self] at hc
        obtain ⟨_, hpos⟩ := h _ _ hreg
        cases hc
        exact ⟨trimLoop_fst_length _ _, hpos⟩
      · rw [Registry.update_other _ _ _ _ hcc] at hc
        exact h c cq hc

theorem insert_pin_sizeInv (reg : Registry) (msg : Message)
    (h : SizeInv reg) : SizeInv (insert_pin reg msg) := by
  intro c cq hc
  cases hreg : reg msg.channel_id with
  | none =>
    simp only [insert_pin, hreg] at hc
    exact h c cq hc
  | some cq0 =>
    simp only [insert_pin, hreg] at hc
    by_cases hcc : c = msg.channel_id
    · subst hcc
      by_cases he : cq0.pins.isEmpty <;>
        simp only [he, if_true, if_false, Bool.false_eq_true] at hc <;>
        rw [Registry.update_self] at hc <;>
        cases hc <;>
        exact h msg.channel_id cq0 hreg
    · by_cases he : cq0.pins.isEmpty <;>
        simp only [he, if_true, if_false, Bool.false_eq_true] at hc <;>
        rw [Registry.update_other _ _ _ _ hcc] at hc <;>
        exact h c cq hc

theorem foldl_insert_pin_sizeInv (pins : List Message) (reg : Registry)
    (h : SizeInv reg) : SizeInv (pins.foldl insert_pin reg) := by
  induction pins generalizing reg with
  | nil => exact h
  | cons p rest ih => exact ih _ (insert_pin_sizeInv _ _ h)

theorem backfillScan_sizeInv (history : List (Except Unit Message))
    (reg : Registry) (count limit : Nat) (h : SizeInv reg) :
    SizeInv (backfillScan reg history count limit).1 := by
  induction history generalizing reg count with
  | nil => simpa [backfillScan] using h
  | cons e rest ih =>
    cases e with
    | error _ => simpa [backfillScan] using h
    | ok msg =>
      by_cases hp : msg.pinned
      · simpa only [backfillScan, hp, if_true] using ih _ _ h
      · by_cases hcnt : count < limit
        · simpa only [backfillScan, hp, hcnt, if_true, if_false, Bool.false_eq_true]
            using ih _ _ (insert_message_sizeInv _ _ _ h)
        · simpa only [backfillScan, hp, hcnt, if_true, if_false, Bool.false_eq_true]
            using ih _ _ h

theorem update_limit_sizeInv (st : MMState) (ch new_limit : Nat)
    (is_init : Bool) (user : Option Nat) (history : List (Except Unit Message))
    (pf : Except Unit (List Message)) (now : Nat) (uOk aOk : Bool)
    (res : MMState × List Message × List DBOp × Reply)
    (h : SizeInv st.channel_queues) (hpos : 0 < new_limit)
    (hres : update_limit st ch new_limit is_init user history pf now uOk aOk = some res) :
    SizeInv res.1.channel_queues := by
  cases hreg : st.channel_queues ch with
  | none =>
    have hreg0 : SizeInv (st.channel_queues.update ch ⟨[], [], new_limit⟩) := by
      intro c cq hc
      by_cases hcc : c = ch
      · subst hcc
        rw [Registry.update_self] at hc
        cases hc
        exact ⟨Nat.zero_le _, hpos⟩
      · rw [Registry.update_other _ _ _ _ hcc] at hc
        exact h c cq hc
    have hscan := backfillScan_sizeInv history _ 0 new_limit hreg0
    cases pf with
    | ok pinned_messages =>
      simp only [update_limit, hreg] at hres
      split at hres
      · cases hres
        exact hscan
      · split at hres
        · cases hres
          exact foldl_insert_pin_sizeInv _ _ hscan
        · split at hres
          · exact Option.noConfusion hres
          · cases hres
            exact foldl_insert_pin_sizeInv _ _ hscan
    | error e =>
      simp only [update_limit, hreg] at hres
      split at hres
      · cases hres
        exact hscan
      · split at hres
        · cases hres
          exact hscan
        · split at hres
          · exact Option.noConfusion hres
          · cases hres
            exact hscan
  | some queue =>
    simp only [update_limit, hreg] at hres
    split at hres
    · exact Option.noConfusion hres
    · split at hres
      · cases hres
        exact h
      · split at hres
        · cases hres
          intro c cq hc
          dsimp only at hc
          by_cases hcc : c = ch
          · subst hcc
            rw [Registry.update_self] at hc
            cases hc
            obtain ⟨hlen, _⟩ := h _ _ hreg
            refine ⟨?_, ?_⟩ <;> simp only <;> omega
          · rw [Registry.update_other _ _ _ _ hcc] at hc
            exact h c cq hc
        · cases hres
          intro c cq hc
          dsimp only at hc
          by_cases hcc : c = ch
          · subst hcc
            rw [Registry.update_self] at hc
            cases hc
            refine ⟨?_, hpos⟩
            simp only [List.length_drop]
            omega
          · rw [Registry.update_other _ _ _ _ hcc] at hc
            exact h c cq hc

theorem wReg_sizeInv : SizeInv wReg := by
  intro c cq hc
  unfold wReg at hc
  split at hc
  · cases hc
    exact ⟨Nat.zero_le 5, by decide⟩
  · exact Option.noConfusion hc

/-! ### Claim theorems -/

/-- C1: for every channel with a configured queue, `len(queue) ≤ limit`
holds immediately after every operation — message insertion, pin
reconciliation, and limit change — completes (given the invariant held
before and limits are positive, as the validated range 5..=500
guarantees). -/
theorem c1_size_invariant (reg : Registry) (msg : Message) (pb : Bool)
    (ch : Nat) (fetch : Option (List Message)) (st : MMState)
    (ch2 new_limit : Nat) (is_init : Bool) (user : Option Nat)
    (history : List (Except Unit Message)) (pf : Except Unit (List Message))
    (now : Nat) (uOk aOk : Bool) (res : MMState × List Message × List DBOp × Reply)
    (h1 : SizeInv reg) (h2 : SizeInv st.channel_queues) (hpos : 0 < new_limit)
    (hres : update_limit st ch2 new_limit is_init user history pf now uOk aOk = some res) :
    SizeInv (insert_message reg msg pb).1 ∧
    SizeInv (on_pins_updated reg ch fetch).1 ∧
    SizeInv res.1.channel_queues :=
  ⟨insert_message_sizeInv reg msg pb h1,
   on_pins_updated_sizeInv reg ch fetch h1,
   update_limit_sizeInv st ch2 new_limit is_init user history pf now uOk aOk
     res h2 hpos hres⟩

/-- Witness for C1 at concrete inputs. -/
theorem c1_size_invariant_witness :
    SizeInv (insert_message wReg wMsg true).1 ∧
    SizeInv (on_pins_updated wReg 1 (some [])).1 ∧
    SizeInv c1Res.1.channel_queues :=
  c1_size_invariant wReg wMsg true 1 (some []) wSt 2 5 false (some 9) []
    (Except.ok []) 0 true true c1Res wReg_sizeInv wReg_sizeInv (by decide) rfl

/-- C2: inserting on a monitored channel pops the front (oldest) entries
and issues remote deletes while `len(queue) ≥ limit` — i.e. it deletes
exactly the first `len + 1 - limit` entries — then inserts the new
message at the requested end (back or front); on an unmonitored channel
it is a no-op for either requested end; and in the concrete scenario
(limit 5, m1..m6 inserted at the back), exactly m1 is evicted and the
final queue is [m2,m3,m4,m5,m6]. -/
theorem c2_insert_evicts_oldest (regU regM : Registry) (mU mM : Message)
    (pbU : Bool) (cq : CappedQueue)
    (hU : regU mU.channel_id = none) (hM : regM mM.channel_id = some cq) :
    insert_message regU mU pbU = (regU, []) ∧
    (insert_message regM mM true).2 =
      cq.queue.take (cq.queue.length + 1 - cq.limit) ∧
    (insert_message regM mM false).2 =
      cq.queue.take (cq.queue.length + 1 - cq.limit) ∧
    (insert_message regM mM true).1 mM.channel_id =
      some { cq with queue := cq.queue.drop (cq.queue.length + 1 - cq.limit) ++ [mM] } ∧
    (insert_message regM mM false).1 mM.channel_id =
      some { cq with queue := mM :: cq.queue.drop (cq.queue.length + 1 - cq.limit) } ∧
    scenarioRun.1 1 =
      some ⟨[scenarioMsg 2, scenarioMsg 3, scenarioMsg 4, scenarioMsg 5,
             scenarioMsg 6], [], 5⟩ ∧
    scenarioRun.2 = [scenarioMsg 1] := by
  refine ⟨?_, ?_, ?_, ?_, ?_, ?_, ?_⟩
  · simp [insert_message, hU]
  · simp [insert_message, hM, evictLoop_eq]
  · simp [insert_message, hM, evictLoop_eq]
  · simp [insert_message, hM, evictLoop_eq, Registry.update_self]
  · simp [insert_message, hM, evictLoop_eq, Registry.update_self]
  · decide
  · decide

/-- Witness for C2 at concrete inputs (front-insert requested on the
unmonitored channel; both ends exercised on the monitored one). -/
theorem c2_insert_evicts_oldest_witness :
    insert_message wReg wMsgOther false = (wReg, []) ∧
    (insert_message wRegCfg wMsg true).2 =
      ([wMsg].take ([wMsg].length + 1 - 5)) ∧
    (insert_message wRegCfg wMsg false).2 =
      ([wMsg].take ([wMsg].length + 1 - 5)) ∧
    (insert_message wRegCfg wMsg true).1 wMsg.channel_id =
      some ⟨[wMsg].drop ([wMsg].length + 1 - 5) ++ [wMsg], [], 5⟩ ∧
    (insert_message wRegCfg wMsg false).1 wMsg.channel_id =
      some ⟨wMsg :: [wMsg].drop ([wMsg].length + 1 - 5), [], 5⟩ ∧
    scenarioRun.1 1 =
      some ⟨[scenarioMsg 2, scenarioMsg 3, scenarioMsg 4, scenarioMsg 5,
             scenarioMsg 6], [], 5⟩ ∧
    scenarioRun.2 = [scenarioMsg 1] :=
  c2_insert_evicts_oldest wReg wRegCfg wMsgOther wMsg false ⟨[wMsg], [], 5⟩ rfl rfl

/-! ### Preservation of queue/pin disjointness -/

theorem insert_message_disjInv (reg : Registry) (msg : Message) (pb : Bool)
    (h : DisjInv reg)
    (hfresh : ∀ cq, reg msg.channel_id = some cq → ∀ p ∈ cq.pins, msg.id ≠ p.id) :
    DisjInv (insert_message reg msg pb).1 := by
  intro c cq hc m hm p hp
  cases hreg : reg msg.channel_id with
  | none =>
    simp only [insert_message, hreg] at hc
    exact h c cq hc m hm p hp
  | some cq0 =>
    simp only [insert_message, hreg] at hc
    by_cases hcc : c = msg.channel_id
    · subst hcc
      rw [Registry.update_self] at hc
      cases hc
      have hm' : m = msg ∨ m ∈ cq0.queue := by
        by_cases hpb : pb <;> simp [hpb] at hm <;>
          rcases hm with hm | hm <;>
          first
            | exact Or.inl hm
            | exact Or.inr ((evictLoop_fst_sublist _ _).subset hm)
      cases hm' with
      | inl he =>
        subst he
        exact hfresh cq0 hreg p hp
      | inr hmem => exact h _ _ hreg m hmem p hp
    · rw [Registry.update_other _ _ _ _ hcc] at hc
      exact h c cq hc m hm p hp

theorem on_pins_updated_disjInv (reg : Registry) (ch : Nat)
    (fetch : Option (List Message)) (h : DisjInv reg) :
    DisjInv (on_pins_updated reg ch fetch).1 := by
  intro c cq hc m hm p hp
  cases hreg : reg ch with
  | none =>
    simp only [on_pins_updated, hreg] at hc
    exact h c cq hc m hm p hp
  | some cq0 =>
    cases fetch with
    | none =>
      simp only [on_pins_updated, hreg] at hc
      exact h c cq hc m hm p hp
    | some snap =>
      simp only [on_pins_updated, hreg] at hc
      by_cases hcc : c = ch
      · subst hcc
        rw [Registry.update_self] at hc
        cases hc
        dsimp only at hm hp
        have hmem := mem_sortByTimestamp.mp ((trimLoop_fst_sublist _ _).subset hm)
        rcases List.mem_append.mp hmem with hmr | hmq
        · -- `m` is a formerly pinned message whose id left the snapshot
          obtain ⟨-, hf⟩ := List.mem_filter.mp hmr
          simp only [Bool.not_eq_true', List.any_eq_false, beq_iff_eq] at hf
          exact fun hid => hf p hp hid.symm
        · -- `m` survived the retain: its id is not among the added pins
          obtain ⟨hmq0, hf⟩ := List.mem_filter.mp hmq
          intro hid
          by_cases hany : (cq0.pins.any (fun e => e.id == p.id)) = true
          · obtain ⟨e, he, hbe⟩ := List.any_eq_true.mp hany
            exact h _ _ hreg m hmq0 e he (hid.trans (beq_iff_eq.mp hbe).symm)
          · have hfalse : (cq0.pins.any fun e => e.id == p.id) = false :=
              Bool.eq_false_iff.mpr hany
            have hpmem : p ∈ snap.filter
                (fun c0 => !(cq0.pins.any (fun e => e.id == c0.id))) :=
              List.mem_filter.mpr ⟨hp, by rw [hfalse]; rfl⟩
            have hpadd : m.id ∈ (snap.filter
                (fun c0 => !(cq0.pins.any (fun e => e.id == c0.id)))).map
                  (fun c0 => c0.id) := by
              rw [hid]
              exact List.mem_map.mpr ⟨p, hpmem, rfl⟩
            rw [Bool.not_eq_true'] at hf
            have hcont := containsNat_iff.mpr hpadd
            rw [hf] at hcont
            exact Bool.noConfusion hcont
      · rw [Registry.update_other _ _ _ _ hcc] at hc
        exact h c cq hc m hm p hp

theorem wReg_disjInv : DisjInv wReg := by
  intro c cq hc
  unfold wReg at hc
  split at hc
  · cases hc
    intro m hm
    exact absurd hm (List.not_mem_nil m)
  · exact Option.noConfusion hc

/-- C3: for every channel, `queue` and `pins` are disjoint by message
identifier, and the disjointness is preserved both by inserting a newly
received message (whose fresh identifier is not among the channel's
pins) and by pin reconciliation. -/
theorem c3_queue_pins_disjoint (regI regR : Registry) (msg : Message)
    (pb : Bool) (ch : Nat) (fetch : Option (List Message))
    (hI : DisjInv regI)
    (hfresh : ∀ cq, regI msg.channel_id = some cq → ∀ p ∈ cq.pins, msg.id ≠ p.id)
    (hR : DisjInv regR) :
    DisjInv (insert_message regI msg pb).1 ∧
    DisjInv (on_pins_updated regR ch fetch).1 :=
  ⟨insert_message_disjInv regI msg pb hI hfresh,
   on_pins_updated_disjInv regR ch fetch hR⟩

/-- Witness for C3 at concrete inputs. -/
theorem c3_queue_pins_disjoint_witness :
    DisjInv (insert_message wReg wMsg true).1 ∧
    DisjInv (on_pins_updated wReg 1 (some [pinA])).1 :=
  c3_queue_pins_disjoint wReg wReg wMsg true 1 (some [pinA]) wReg_disjInv
    (by
      intro cq hcq p hp
      have h2 : (⟨[], [], 5⟩ : CappedQueue) = cq := Option.some.inj hcq
      subst h2
      exact absurd hp (List.not_mem_nil p))
    wReg_disjInv

/-! ### Sortedness of the pin list -/

theorem mem_insertChrono {msg x : Message} {l : List Message} :
    x ∈ insertChrono msg l ↔ x = msg ∨ x ∈ l := by
  induction l with
  | nil => simp [insertChrono]
  | cons q rest ih =>
    by_cases hq : q.timestamp > msg.timestamp
    · simp only [insertChrono, if_pos hq, List.mem_cons]
    · simp only [insertChrono, if_neg hq, List.mem_cons, ih]
      tauto

theorem insertChrono_sorted {msg : Message} {l : List Message}
    (h : List.Sorted tsLE l) : List.Sorted tsLE (insertChrono msg l) := by
  induction l with
  | nil => simp [insertChrono, List.sorted_singleton]
  | cons q rest ih =>
    rw [List.sorted_cons] at h
    obtain ⟨hq, hrest⟩ := h
    by_cases hgt : q.timestamp > msg.timestamp
    · simp only [insertChrono, if_pos hgt]
      rw [List.sorted_cons]
      refine ⟨?_, List.sorted_cons.mpr ⟨hq, hrest⟩⟩
      intro b hb
      rcases List.mem_cons.mp hb with hb | hb
      · subst hb
        exact Nat.le_of_lt hgt
      · exact Nat.le_trans (Nat.le_of_lt hgt) (hq b hb)
    · simp only [insertChrono, if_neg hgt]
      rw [List.sorted_cons]
      refine ⟨?_, ih hrest⟩
      intro b hb
      rcases mem_insertChrono.mp hb with hb | hb
      · subst hb
        exact Nat.le_of_not_lt hgt
      · exact hq b hb

theorem insert_pin_pinsSorted (reg : Registry) (msg : Message)
    (h : PinsSorted reg) : PinsSorted (insert_pin reg msg) := by
  intro c cq hc
  cases hreg : reg msg.channel_id with
  | none =>
    simp only [insert_pin, hreg] at hc
    exact h c cq hc
  | some cq0 =>
    simp only [insert_pin, hreg] at hc
    by_cases hcc : c = msg.channel_id
    · subst hcc
      by_cases he : cq0.pins.isEmpty
      · simp only [he, if_true] at hc
        rw [Registry.update_self] at hc
        cases hc
        exact List.sorted_singleton msg
      · simp only [he, if_false, Bool.false_eq_true] at hc
        rw [Registry.update_self] at hc
        cases hc
        exact insertChrono_sorted (h _ _ hreg)
    · by_cases he : cq0.pins.isEmpty <;>
        simp only [he, if_true, if_false, Bool.false_eq_true] at hc <;>
        rw [Registry.update_other _ _ _ _ hcc] at hc <;>
        exact h c cq hc

theorem wReg_pinsSorted : PinsSorted wReg := by
  intro c cq hc
  unfold wReg at hc
  split at hc
  · cases hc
    exact List.sorted_nil
  · exact Option.noConfusion hc

/-- C4 counterexample: reconciling channel 1 of `wReg` with the remote
snapshot `[pinA, pinB]` (timestamps 2 then 1, not ascending) assigns the
snapshot to `pins` verbatim, leaving `pins` not sorted ascending by
timestamp — the source's `updated_pins.sort_by(..)` is commented out, so
no sort happens on assignment. -/
theorem c4_counterexample :
    (on_pins_updated wReg 1 (some [pinA, pinB])).1 1 =
      some ⟨[], [pinA, pinB], 5⟩ ∧
    ¬ List.Sorted tsLE [pinA, pinB] := by
  constructor
  · rfl
  · decide

/-- C4 amended: a targeted single-pin insert places the pin at its
ascending-timestamp position, keeping every channel's pins sorted; pin
reconciliation assigns the remote snapshot to `pins` verbatim (without
sorting on assignment), so after reconciliation pins are sorted exactly
when the snapshot itself is sorted ascending. -/
theorem c4_pins_sorted_amended (reg1 reg2 : Registry) (msg : Message)
    (ch : Nat) (snap : List Message)
    (h1 : PinsSorted reg1) (h2 : PinsSorted reg2)
    (hsnap : List.Sorted tsLE snap) :
    PinsSorted (insert_pin reg1 msg) ∧
    (∀ cq, reg2 ch = some cq →
      ∃ q', (on_pins_updated reg2 ch (some snap)).1 ch = some ⟨q', snap, cq.limit⟩) ∧
    PinsSorted (on_pins_updated reg2 ch (some snap)).1 := by
  refine ⟨insert_pin_pinsSorted reg1 msg h1, ?_, ?_⟩
  · intro cq hcq
    simp only [on_pins_updated, hcq]
    exact ⟨_, Registry.update_self _ _ _⟩
  · intro c cq hc
    cases hreg : reg2 ch with
    | none =>
      simp only [on_pins_updated, hreg] at hc
      exact h2 c cq hc
    | some cq0 =>
      simp only [on_pins_updated, hreg] at hc
      by_cases hcc : c = ch
      · subst hcc
        rw [Registry.update_self] at hc
        cases hc
        exact hsnap
      · rw [Registry.update_other _ _ _ _ hcc] at hc
        exact h2 c cq hc

/-- Witness for the amended C4 at concrete inputs (`[pinB, pinA]` is
ascending: timestamps 1 then 2). -/
theorem c4_pins_sorted_amended_witness :
    PinsSorted (insert_pin wReg pinA) ∧
    (∀ cq, wReg 1 = some cq →
      ∃ q', (on_pins_updated wReg 1 (some [pinB, pinA])).1 1 =
        some ⟨q', [pinB, pinA], cq.limit⟩) ∧
    PinsSorted (on_pins_updated wReg 1 (some [pinB, pinA])).1 :=
  c4_pins_sorted_amended wReg wReg pinA 1 [pinB, pinA] wReg_pinsSorted
    wReg_pinsSorted (by decide)

/-! ### Idempotence of pin reconciliation -/

/-- Unfolding of `on_pins_updated` on a configured channel with a
successful pin fetch. -/
theorem on_pins_updated_eq (reg : Registry) (ch : Nat) (snap : List Message)
    (cq : CappedQueue) (h : reg ch = some cq) :
    on_pins_updated reg ch (some snap) =
      (reg.update ch
        ⟨(trimLoop cq.limit (sortByTimestamp
            (cq.pins.filter (fun e => !(snap.any (fun c => c.id == e.id))) ++
             cq.queue.filter (fun m =>
               !(((snap.filter (fun c => !(cq.pins.any (fun e => e.id == c.id)))).map
                   (fun c => c.id)).contains m.id))))).1,
         snap, cq.limit⟩,
       (trimLoop cq.limit (sortByTimestamp
            (cq.pins.filter (fun e => !(snap.any (fun c => c.id == e.id))) ++
             cq.queue.filter (fun m =>
               !(((snap.filter (fun c => !(cq.pins.any (fun e => e.id == c.id)))).map
                   (fun c => c.id)).contains m.id))))).2) := by
  simp only [on_pins_updated, h]

/-- When the local pins already equal the snapshot, the queue is sorted
and within the limit, reconciliation is a true no-op. -/
theorem on_pins_updated_noop (reg : Registry) (ch : Nat) (snap : List Message)
    (cq : CappedQueue) (h : reg ch = some cq) (hpins : cq.pins = snap)
    (hsorted : List.Sorted tsLE cq.queue) (hlen : cq.queue.length ≤ cq.limit) :
    on_pins_updated reg ch (some snap) = (reg, []) := by
  have hrem : cq.pins.filter (fun e => !(snap.any (fun c => c.id == e.id))) = [] := by
    rw [hpins, List.filter_eq_nil_iff]
    intro a ha
    have hx : (snap.any fun c => c.id == a.id) = true :=
      List.any_eq_true.mpr ⟨a, ha, by simp⟩
    simp [hx]
  have hadd : (snap.filter (fun c => !(cq.pins.any (fun e => e.id == c.id)))).map
      (fun c => c.id) = [] := by
    have hx : snap.filter (fun c => !(cq.pins.any (fun e => e.id == c.id))) = [] := by
      rw [hpins, List.filter_eq_nil_iff]
      intro a ha
      have hy : (snap.any fun e => e.id == a.id) = true :=
        List.any_eq_true.mpr ⟨a, ha, by simp⟩
      simp [hy]
    rw [hx, List.map_nil]
  have hq1 : cq.queue.filter (fun m => !(([] : List Nat).contains m.id)) = cq.queue :=
    List.filter_eq_self.mpr (fun a _ => rfl)
  rw [on_pins_updated_eq reg ch snap cq h, hrem, hadd, hq1, List.nil_append,
    sortByTimestamp_of_sorted hsorted, trimLoop_of_le _ _ hlen]
  dsimp only
  rw [← hpins]
  rw [show (⟨cq.queue, cq.pins, cq.limit⟩ : CappedQueue) = cq from rfl]
  rw [Registry.update_eq_self reg ch cq h]

/-- C5: pin reconciliation is idempotent: applying it a second time with
the same remote snapshot leaves the whole registry unchanged and issues
no remote delete calls. -/
theorem c5_reconciliation_idempotent (reg : Registry) (ch : Nat)
    (snap : List Message) (cq : CappedQueue) (h : reg ch = some cq) :
    on_pins_updated (on_pins_updated reg ch (some snap)).1 ch (some snap) =
      ((on_pins_updated reg ch (some snap)).1, []) := by
  obtain ⟨q', hq', hsorted, hlen⟩ :
      ∃ q', (on_pins_updated reg ch (some snap)).1 ch = some ⟨q', snap, cq.limit⟩ ∧
        List.Sorted tsLE q' ∧ q'.length ≤ cq.limit := by
    rw [on_pins_updated_eq reg ch snap cq h]
    exact ⟨_, Registry.update_self _ _ _,
      List.Pairwise.sublist (trimLoop_fst_sublist _ _) (sortByTimestamp_sorted _),
      trimLoop_fst_length _ _⟩
  exact on_pins_updated_noop _ ch snap ⟨q', snap, cq.limit⟩ hq' rfl hsorted hlen

/-- Witness for C5 at concrete inputs. -/
theorem c5_reconciliation_idempotent_witness :
    on_pins_updated (on_pins_updated wReg 1 (some [pinB, pinA])).1 1
        (some [pinB, pinA]) =
      ((on_pins_updated wReg 1 (some [pinB, pinA])).1, []) :=
  c5_reconciliation_idempotent wReg 1 [pinB, pinA] ⟨[], [], 5⟩ rfl

/-! ### Limit changes on an existing queue -/

/-- C6: `set_limit` on a channel with an existing queue: raising the
limit evicts nothing and only changes the limit field; lowering it
evicts exactly `max(0, len(queue) - new_limit)` oldest entries (front
pops with remote deletes) and lowers the limit field; an equal limit
returns the already-set acknowledgment with no structural change. -/
theorem c6_set_limit_cases (st : MMState) (ch new_limit u now : Nat)
    (queue : CappedQueue) (hist : List (Except Unit Message))
    (pf : Except Unit (List Message))
    (h : st.channel_queues ch = some queue) :
    (queue.limit < new_limit →
      ∃ ops, update_limit st ch new_limit false (some u) hist pf now true true =
        some ({ st with channel_queues :=
                  st.channel_queues.update ch { queue with limit := new_limit } },
          [], ops, .increased ch queue.limit new_limit)) ∧
    (new_limit < queue.limit →
      ∃ ops, (update_limit st ch new_limit false (some u) hist pf now true true =
        some ({ st with channel_queues :=
                  st.channel_queues.update ch ⟨queue.queue.drop (queue.queue.length - new_limit), queue.pins, new_limit⟩ },
          queue.queue.take (queue.queue.length - new_limit), ops,
          .decreased ch queue.limit new_limit)) ∧
        (queue.queue.take (queue.queue.length - new_limit)).length =
          queue.queue.length - new_limit) ∧
    (queue.limit = new_limit →
      ∃ ops, update_limit st ch new_limit false (some u) hist pf now true true =
        some (st, [], ops, .alreadyLimit new_limit ch)) := by
  have hdb : update_db ch new_limit (some u) st.database now true true =
      some (if st.database then
              [.upsertLimit ch new_limit, .appendAudit (some u) ch new_limit now]
            else [], st.database) := by
    cases hd : st.database <;> simp [update_db, hd]
  refine ⟨?_, ?_, ?_⟩
  · intro hlt
    refine ⟨if st.database then
        [.upsertLimit ch new_limit, .appendAudit (some u) ch new_limit now]
      else [], ?_⟩
    simp only [update_limit, h, hdb]
    rw [if_neg (by omega : ¬ queue.limit = new_limit), if_pos hlt]
  · intro hlt
    refine ⟨if st.database then
        [.upsertLimit ch new_limit, .appendAudit (some u) ch new_limit now]
      else [], ?_, ?_⟩
    · simp only [update_limit, h, hdb]
      rw [if_neg (by omega : ¬ queue.limit = new_limit),
        if_neg (by omega : ¬ queue.limit < new_limit)]
    · rw [List.length_take]
      omega
  · intro heq
    refine ⟨if st.database then
        [.upsertLimit ch new_limit, .appendAudit (some u) ch new_limit now]
      else [], ?_⟩
    simp only [update_limit, h, hdb]
    rw [if_pos heq]

/-- Witness for C6 at concrete inputs (`wCq.limit = 5`, new limit 6). -/
theorem c6_set_limit_cases_witness :
    (wCq.limit < 6 →
      ∃ ops, update_limit wStCfg 1 6 false (some 9) [] (Except.ok []) 0 true true =
        some ({ wStCfg with channel_queues :=
                  wStCfg.channel_queues.update 1 { wCq with limit := 6 } },
          [], ops, .increased 1 wCq.limit 6)) ∧
    (6 < wCq.limit →
      ∃ ops, (update_limit wStCfg 1 6 false (some 9) [] (Except.ok []) 0 true true =
        some ({ wStCfg with channel_queues :=
                  wStCfg.channel_queues.update 1 ⟨wCq.queue.drop (wCq.queue.length - 6), wCq.pins, 6⟩ },
          wCq.queue.take (wCq.queue.length - 6), ops, .decreased 1 wCq.limit 6)) ∧
        (wCq.queue.take (wCq.queue.length - 6)).length = wCq.queue.length - 6) ∧
    (wCq.limit = 6 →
      ∃ ops, update_limit wStCfg 1 6 false (some 9) [] (Except.ok []) 0 true true =
        some (wStCfg, [], ops, .alreadyLimit 6 1)) :=
  c6_set_limit_cases wStCfg 1 6 9 0 wCq [] (Except.ok []) rfl

/-! ### Removing a limit, and persisted-store write failures -/

/-- C7 counterexample: `remove_limit` on the configured channel 1 of
`wStCfg` (database present, both writes succeeding) issues exactly one
persisted-row deletion (`DELETE FROM channel_limits`) plus one audit
append — it does not delete two persisted rows, because nothing ever
deletes from `channel_limit_edits`. -/
theorem c7_counterexample :
    (remove_limit wStCfg 1 9 1000 true true).map (fun r => r.2.2.1) =
      some [.deleteLimitRow 1, .appendAudit (some 9) 1 0 1000] ∧
    (remove_limit wStCfg 1 9 1000 true true).map
        (fun r => (r.2.2.1.filter (fun o => o.isRowDelete)).length) = some 1 ∧
    (1 : Nat) ≠ 2 := by
  refine ⟨rfl, rfl, by decide⟩

/-- C7 amended: `remove_limit` on a channel with no configured queue
returns the "not configured" message with no side effects (no registry
change, zero persisted-store calls, no remote deletes); on a configured
channel it removes the channel from the registry, discards the in-memory
queue without issuing remote deletes, deletes the single persisted limit
row for the channel, and appends a removal audit record with new limit
zero. -/
theorem c7_remove_limit (st : MMState) (ch user now : Nat) (dOk aOk : Bool)
    (hdb : st.database = true) :
    (st.channel_queues ch = none →
      remove_limit st ch user now dOk aOk = some (st, [], [], .noLimit ch)) ∧
    (∀ cq, st.channel_queues ch = some cq →
      remove_limit st ch user now true true =
        some ({ st with channel_queues := st.channel_queues.erase ch }, [],
          [.deleteLimitRow ch, .appendAudit (some user) ch 0 now],
          .removedLimit cq.limit ch) ∧
      (st.channel_queues.erase ch) ch = none) := by
  constructor
  · intro hnone
    simp only [remove_limit, hnone]
  · intro cq hsome
    refine ⟨?_, ?_⟩
    · simp only [remove_limit, hsome, hdb, if_true]
    · simp [Registry.erase]

/-- Witness for the amended C7 at concrete inputs: channel 2 of `wStCfg`
is unconfigured, channel 1 is configured. -/
theorem c7_remove_limit_witness :
    (wStCfg.channel_queues 2 = none →
      remove_limit wStCfg 2 9 1000 false true = some (wStCfg, [], [], .noLimit 2)) ∧
    (∀ cq, wStCfg.channel_queues 2 = some cq →
      remove_limit wStCfg 2 9 1000 true true =
        some ({ wStCfg with channel_queues := wStCfg.channel_queues.erase 2 }, [],
          [.deleteLimitRow 2, .appendAudit (some 9) 2 0 1000],
          .removedLimit cq.limit 2) ∧
      (wStCfg.channel_queues.erase 2) 2 = none) :=
  c7_remove_limit wStCfg 2 9 1000 false true rfl

/-- C8 evidence: a persisted-store write failure is not merely logged —
the `execute(..).unwrap()` / `expect(..)` calls panic, aborting the
in-progress command (modelled as `none`): a failing limit upsert, a
failing audit append, and a failing limit-row delete all abort
`update_db` / `remove_limit` instead of completing. -/
theorem c8_db_write_failure_panics :
    update_db 1 5 (some 9) true 0 false true = none ∧
    update_db 1 5 (some 9) true 0 true false = none ∧
    remove_limit wStCfg 1 9 1000 false true = none ∧
    remove_limit wStCfg 1 9 1000 true false = none := by
  refine ⟨rfl, rfl, rfl, rfl⟩

/-! ### The backfill scan of a newly created queue -/

theorem insert_pin_preserves_queue (reg : Registry) (m : Message) (c : Nat)
    (cq : CappedQueue) (hc : reg c = some cq) :
    ∃ ps, (insert_pin reg m) c = some ⟨cq.queue, ps, cq.limit⟩ := by
  cases hreg : reg m.channel_id with
  | none =>
    refine ⟨cq.pins, ?_⟩
    simp only [insert_pin, hreg]
    rw [hc]
  | some cq0 =>
    by_cases hcc : c = m.channel_id
    · subst hcc
      rw [hc] at hreg
      cases hreg
      by_cases he : cq.pins.isEmpty
      · refine ⟨[m], ?_⟩
        simp only [insert_pin, hc, he, if_true]
        rw [Registry.update_self]
      · refine ⟨insertChrono m cq.pins, ?_⟩
        simp only [insert_pin, hc, he, if_false, Bool.false_eq_true]
        rw [Registry.update_self]
    · refine ⟨cq.pins, ?_⟩
      simp only [insert_pin, hreg]
      by_cases he : cq0.pins.isEmpty <;>
        simp only [he, if_true, if_false, Bool.false_eq_true] <;>
        rw [Registry.update_other _ _ _ _ hcc, hc]

theorem foldl_insert_pin_preserves_queue (pins : List Message) (reg : Registry)
    (c : Nat) (cq : CappedQueue) (hc : reg c = some cq) :
    ∃ ps, (pins.foldl insert_pin reg) c = some ⟨cq.queue, ps, cq.limit⟩ := by
  induction pins generalizing reg cq with
  | nil =>
    refine ⟨cq.pins, ?_⟩
    rw [List.foldl_nil, hc]
  | cons p rest ih =>
    obtain ⟨ps1, h1⟩ := insert_pin_preserves_queue reg p c cq hc
    obtain ⟨ps2, h2⟩ := ih (insert_pin reg p) ⟨cq.queue, ps1, cq.limit⟩ h1
    exact ⟨ps2, by rw [List.foldl_cons]; exact h2⟩

/-- Characterization of the backfill scan over an error-free newest-first
history: pinned messages are skipped, the first `limit - count` non-pinned
messages are inserted at the front (so they end up reversed, i.e. in
chronological order), and all later non-pinned messages are remotely
deleted. -/
theorem backfillScan_ok_char (msgs : List Message) (reg : Registry) (ch : Nat)
    (cq : CappedQueue) (count limit : Nat)
    (hreg : reg ch = some cq) (hlen : cq.queue.length = min count limit)
    (hlim : cq.limit = limit)
    (hch : ∀ m ∈ msgs, m.channel_id = ch) :
    backfillScan reg (msgs.map Except.ok) count limit =
      (reg.update ch
        ⟨((msgs.filter (fun m => !m.pinned)).take (limit - count)).reverse ++ cq.queue,
         cq.pins, cq.limit⟩,
       (msgs.filter (fun m => !m.pinned)).drop (limit - count), false) := by
  induction msgs generalizing reg cq count with
  | nil =>
    simp only [List.map_nil, backfillScan, List.filter_nil, List.take_nil,
      List.drop_nil, List.reverse_nil, List.nil_append]
    rw [show (⟨cq.queue, cq.pins, cq.limit⟩ : CappedQueue) = cq from rfl,
      Registry.update_eq_self reg ch cq hreg]
  | cons m rest ih =>
    have hmch : m.channel_id = ch := hch m (List.mem_cons_self m rest)
    have hchrest : ∀ x ∈ rest, x.channel_id = ch :=
      fun x hx => hch x (List.mem_cons_of_mem m hx)
    by_cases hp : m.pinned
    · simp only [List.map_cons, backfillScan, hp, if_true, List.filter_cons]
      rw [if_neg (by simp [hp])]
      exact ih reg cq count hreg hlen hlim hchrest
    · by_cases hcnt : count < limit
      · have hlt : cq.queue.length < cq.limit := by
          rw [hlen, hlim]
          omega
        have hins : insert_message reg m false =
            (reg.update ch ⟨m :: cq.queue, cq.pins, cq.limit⟩, []) := by
          simp [insert_message, hmch, hreg, evictLoop_of_lt cq.limit cq.queue hlt]
        have hih := ih (reg.update ch ⟨m :: cq.queue, cq.pins, cq.limit⟩)
          ⟨m :: cq.queue, cq.pins, cq.limit⟩ (count + 1)
          (Registry.update_self _ _ _)
          (by simp only [List.length_cons, hlen]; omega)
          hlim hchrest
        simp only [List.map_cons, backfillScan, hp, hcnt, if_true, if_false,
          Bool.false_eq_true, hins, hih, List.filter_cons]
        rw [if_pos (by simp [hp])]
        have hsub : limit - count = (limit - (count + 1)) + 1 := by omega
        rw [hsub, List.take_succ_cons, List.drop_succ_cons, List.reverse_cons,
          List.append_assoc, List.singleton_append, Registry.update_update,
          List.nil_append]
      · have hge : min (count + 1) limit = min count limit := by omega
        have hih := ih reg cq (count + 1) hreg (by rw [hlen, ← hge]) hlim hchrest
        have hlc : limit - count = 0 := by omega
        have hlc' : limit - (count + 1) = 0 := by omega
        rw [hlc'] at hih
        simp only [List.take_zero, List.drop_zero, List.reverse_nil,
          List.nil_append] at hih
        simp only [List.map_cons, backfillScan, hp, hcnt, if_true, if_false,
          Bool.false_eq_true, hih, List.filter_cons]
        rw [if_pos (by simp [hp]), hlc]
        simp only [List.take_zero, List.drop_zero, List.reverse_nil,
          List.nil_append]

/-- C9: when `set_limit` creates a new queue, the newest-first backfill
scan skips every pinned message, inserts each non-pinned message at the
front of the queue while fewer than `new_limit` non-pinned messages have
been processed, and remotely deletes every later non-pinned message; the
resulting queue holds the newest at most `new_limit` non-pinned messages
in chronological (ascending-timestamp) order. -/
theorem c9_new_queue_backfill (st : MMState) (ch new_limit u now : Nat)
    (msgs : List Message) (pf : Except Unit (List Message))
    (hnone : st.channel_queues ch = none)
    (hch : ∀ m ∈ msgs, m.channel_id = ch)
    (hdesc : List.Pairwise (fun a b => tsLE b a) msgs) :
    ∃ st' ops ps,
      update_limit st ch new_limit false (some u) (msgs.map Except.ok) pf now true true =
        some (st', (msgs.filter (fun m => !m.pinned)).drop new_limit, ops,
          .created new_limit ch) ∧
      st'.channel_queues ch =
        some ⟨((msgs.filter (fun m => !m.pinned)).take new_limit).reverse, ps,
          new_limit⟩ ∧
      List.Sorted tsLE (((msgs.filter (fun m => !m.pinned)).take new_limit).reverse) := by
  have hchar := backfillScan_ok_char msgs
    (st.channel_queues.update ch ⟨[], [], new_limit⟩) ch ⟨[], [], new_limit⟩
    0 new_limit (Registry.update_self _ _ _) (by simp) rfl hch
  simp only [Nat.sub_zero, List.append_nil] at hchar
  have hdb : update_db ch new_limit (some u) st.database now true true =
      some (if st.database then
              [.upsertLimit ch new_limit, .appendAudit (some u) ch new_limit now]
            else [], st.database) := by
    cases hd : st.database <;> simp [update_db, hd]
  have hsorted : List.Sorted tsLE
      (((msgs.filter (fun m => !m.pinned)).take new_limit).reverse) :=
    List.pairwise_reverse.mpr (List.Pairwise.take (hdesc.filter _))
  cases pf with
  | ok pinned_messages =>
    obtain ⟨ps, hps⟩ := foldl_insert_pin_preserves_queue pinned_messages
      ((st.channel_queues.update ch ⟨[], [], new_limit⟩).update ch
        ⟨((msgs.filter (fun m => !m.pinned)).take new_limit).reverse, [], new_limit⟩)
      ch ⟨((msgs.filter (fun m => !m.pinned)).take new_limit).reverse, [], new_limit⟩
      (Registry.update_self _ _ _)
    refine ⟨{ st with channel_queues := pinned_messages.foldl insert_pin ((st.channel_queues.update ch ⟨[], [], new_limit⟩).update ch ⟨((msgs.filter (fun m => !m.pinned)).take new_limit).reverse, [], new_limit⟩) },
      if st.database then
        [.upsertLimit ch new_limit, .appendAudit (some u) ch new_limit now]
      else [], ps, ?_, ?_, hsorted⟩
    · simp only [update_limit, hnone, hchar, hdb, Bool.false_eq_true, if_false]
    · exact hps
  | error e =>
    refine ⟨{ st with channel_queues := (st.channel_queues.update ch ⟨[], [], new_limit⟩).update ch ⟨((msgs.filter (fun m => !m.pinned)).take new_limit).reverse, [], new_limit⟩ },
      if st.database then
        [.upsertLimit ch new_limit, .appendAudit (some u) ch new_limit now]
      else [], [], ?_, ?_, hsorted⟩
    · simp only [update_limit, hnone, hchar, hdb, Bool.false_eq_true, if_false]
    · exact Registry.update_self _ _ _

/-- Witness for C9 at concrete inputs: `c9Msgs` is six messages, newest
first, with the message of id 4 pinned; the new limit is 3. -/
theorem c9_new_queue_backfill_witness :
    ∃ st' ops ps,
      update_limit emptySt 1 3 false (some 9) (c9Msgs.map Except.ok)
          (Except.ok []) 0 true true =
        some (st', (c9Msgs.filter (fun m => !m.pinned)).drop 3, ops,
          .created 3 1) ∧
      st'.channel_queues 1 =
        some ⟨((c9Msgs.filter (fun m => !m.pinned)).take 3).reverse, ps, 3⟩ ∧
      List.Sorted tsLE (((c9Msgs.filter (fun m => !m.pinned)).take 3).reverse) :=
  c9_new_queue_backfill emptySt 1 3 9 0 c9Msgs (Except.ok []) rfl (by decide)
    (by decide)

/-- C10: pin reconciliation on a channel with no configured queue, or
whose remote pin fetch fails, is a complete no-op: the registry (hence
every queue, pin list and limit) is unchanged and no remote delete calls
are issued. -/
theorem c10_reconcile_noop (reg reg2 : Registry) (ch ch2 : Nat)
    (fetch : Option (List Message)) (h : reg ch = none) :
    on_pins_updated reg ch fetch = (reg, []) ∧
    on_pins_updated reg2 ch2 none = (reg2, []) := by
  constructor
  · simp only [on_pins_updated, h]
  · cases hreg : reg2 ch2 with
    | none => simp only [on_pins_updated, hreg]
    | some cq => simp only [on_pins_updated, hreg]

/-- Witness for C10 at concrete inputs: channel 2 of `wReg` is
unconfigured; channel 1 of `wRegCfg` is configured but the fetch fails. -/
theorem c10_reconcile_noop_witness :
    on_pins_updated wReg 2 (some [pinA]) = (wReg, []) ∧
    on_pins_updated wRegCfg 1 none = (wRegCfg, []) :=
  c10_reconcile_noop wReg wRegCfg 2 1 (some [pinA]) rfl

end Autodeletto
